import Mathlib

/-!
Verification of the simple-blockchain ledger engine (`main.py`).

Shallow embedding conventions:
* Python `float` money amounts are modelled as exact rationals `ℚ`;
  the literal `1e-9` tolerance becomes the exact rational `1/10^9`.
* `datetime` timestamps are modelled as integers (comparable instants);
  `isoformat()` becomes the decimal rendering of that integer.  The
  fixed genesis instant 2025-01-01T00:00:00+00:00 is its Unix time.
* `hashlib.sha256(...).hexdigest()` is modelled as an explicit
  parameter `hashFn : String → String`: every definition and theorem is
  stated for an arbitrary hash function, and concrete instances pick a
  concrete one.  The serialized pre-image (`block_string`) is modelled
  faithfully, including the key order used by `json.dumps` with sorted keys
  (`amount` < `from` < `to`) and its `", "`/`": "` separators.
* JSON string escaping is modelled as plain quoting (the addresses used
  in this development contain no characters needing escapes).
* The unbounded proof-of-work loop is modelled with explicit fuel and
  an `Option` result; theorems about mining are conditional on the loop
  returning.
* `datetime.now(timezone.utc)` is an external input: operations that
  read the clock take the current instant as an argument.
-/

/-- A transaction record `{"from": ..., "to": ..., "amount": ...}`. -/
structure Tx where
  from_ : String
  to_ : String
  amount : ℚ
  deriving DecidableEq, Repr

/-- A block: `index`, `previous_hash`, `timestamp`, `transactions`,
`nonce`, `hash` (`Block.__init__`). -/
structure Block where
  index : Nat
  previous_hash : String
  timestamp : Int
  transactions : List Tx
  nonce : Nat
  hash : String
  deriving DecidableEq, Repr

/-- The float tolerance `1e-9`, as an exact rational. -/
def eps : ℚ := 1 / 1000000000

/-- Rendering used by Python for a float amount inside `json.dumps`: an
integral value prints as `"<n>.0"` (the amounts appearing in this
development are all integral). -/
def amountRepr (q : ℚ) : String :=
  if q.den = 1 then toString q.num ++ ".0" else toString q.num ++ "/" ++ toString q.den

/-- JSON rendering of one transaction dict under `sort_keys=True`:
keys in sorted order `amount`, `from`, `to`. -/
def serializeTx (t : Tx) : String :=
  "\x7b\"amount\": " ++ amountRepr t.amount ++ ", \"from\": \"" ++ t.from_ ++
    "\", \"to\": \"" ++ t.to_ ++ "\"\x7d"

/-- Model of `json.dumps(transactions, ensure_ascii=False, sort_keys=True)`:
the list is serialized in order with `", "` separators; only the dict
keys inside each element are sorted. -/
def serializeTxs (l : List Tx) : String :=
  "[" ++ String.intercalate ", " (l.map serializeTx) ++ "]"

/-- Model of `timestamp.isoformat()`, for the integer timestamp model. -/
def tsRepr (t : Int) : String := toString t

/-- The hashed pre-image
`f"{self.index}{self.previous_hash}{ts_str}{tx_str}{self.nonce}"`. -/
def blockString (b : Block) : String :=
  toString b.index ++ b.previous_hash ++ tsRepr b.timestamp ++
    serializeTxs b.transactions ++ toString b.nonce

/-- Method `Block.calculate_hash`: hash of the serialized block fields.  The
stored `hash` field is not part of the pre-image. -/
def Block.calculate_hash (hashFn : String → String) (b : Block) : String :=
  hashFn (blockString b)

/-- Constructor `Block.__init__`: nonce starts at 0 and `hash` is computed
immediately from the other fields. -/
def Block.new (hashFn : String → String) (index : Nat) (previous_hash : String)
    (transactions : List Tx) (timestamp : Int) : Block :=
  let b0 : Block :=
    { index := index, previous_hash := previous_hash, timestamp := timestamp,
      transactions := transactions, nonce := 0, hash := "" }
  { b0 with hash := Block.calculate_hash hashFn b0 }

/-- Model of the Python method `str.strip()`: drop leading and trailing whitespace. -/
def pyStrip (s : String) : String :=
  String.mk (((s.data.dropWhile Char.isWhitespace).reverse.dropWhile
    Char.isWhitespace).reverse)

/-- The proof-of-work target `"0" * difficulty`. -/
def zeros (d : Nat) : String := String.mk (List.replicate d '0')

/-- One iteration of the mining loop body: `self.nonce += 1` followed
by `self.hash = self.calculate_hash()`. -/
def Block.mineStep (hashFn : String → String) (b : Block) : Block :=
  let b1 := { b with nonce := b.nonce + 1 }
  { b1 with hash := Block.calculate_hash hashFn b1 }

/-- Method `Block.mine_block`: loop `while self.hash[:difficulty] != target`,
with explicit fuel bounding the number of iterations; `none` means the
fuel ran out before the target was met. -/
def Block.mine_block (hashFn : String → String) (difficulty : Nat) :
    Nat → Block → Option Block
  | 0, b => if b.hash.take difficulty = zeros difficulty then some b else none
  | fuel + 1, b =>
    if b.hash.take difficulty = zeros difficulty then some b
    else Block.mine_block hashFn difficulty fuel (Block.mineStep hashFn b)

/-- The ledger (`Blockchain.__init__`): configuration, the chain, the
mempool and the registered peer set. -/
structure Blockchain where
  difficulty : Nat
  mining_reward : ℚ
  block_capacity : Nat
  chain : List Block
  mempool : List Tx
  nodes : Finset String
  deriving DecidableEq

/-- Method `Blockchain.create_genesis_block`: fixed timestamp 2025-01-01 UTC,
one `SYSTEM → genesis` allocation of 5000. -/
def Blockchain.create_genesis_block (hashFn : String → String) : Block :=
  Block.new hashFn 0 "0" [{ from_ := "SYSTEM", to_ := "genesis", amount := 5000 }] 1735689600

/-- A fresh ledger with the given configuration
(`Blockchain.__init__(difficulty, mining_reward, block_capacity)`). -/
def Blockchain.init (hashFn : String → String) (difficulty : Nat) (mining_reward : ℚ)
    (block_capacity : Nat) : Blockchain :=
  { difficulty := difficulty, mining_reward := mining_reward,
    block_capacity := block_capacity,
    chain := [Blockchain.create_genesis_block hashFn], mempool := [], nodes := ∅ }

/-- The fresh ledger with the default constructor configuration
(`Blockchain()`: difficulty 3, reward 50.0, capacity 100). -/
def Blockchain.fresh (hashFn : String → String) : Blockchain :=
  Blockchain.init hashFn 3 50 100

/-- Method `Blockchain.get_latest_block` (`self.chain[-1]`), `none` on an
empty chain. -/
def Blockchain.get_latest_block (s : Blockchain) : Option Block :=
  s.chain.getLast?

/-- Per-transaction balance contribution of `address` in
the fold of `Blockchain.get_balance`: debit when it is a non-SYSTEM sender,
credit when it is the recipient. -/
def txDelta (address : String) (t : Tx) : ℚ :=
  (if t.to_ = address then t.amount else 0) -
    (if t.from_ = address ∧ t.from_ ≠ "SYSTEM" then t.amount else 0)

/-- Net contribution of a transaction list to the balance of `address`. -/
def deltaList (address : String) (l : List Tx) : ℚ :=
  (l.map (txDelta address)).sum

/-- All transactions of a chain, in block order. -/
def chainTxs (chain : List Block) : List Tx :=
  (chain.map Block.transactions).flatten

/-- Method `Blockchain.get_balance` as a function of the chain. -/
def chainBalance (chain : List Block) (address : String) : ℚ :=
  deltaList address (chainTxs chain)

/-- Method `Blockchain.get_balance` itself. -/
def Blockchain.get_balance (s : Blockchain) (address : String) : ℚ :=
  chainBalance s.chain address

/-- Sum of the pending mempool debits of `sender`:
`sum(t["amount"] for t in self.mempool if t["from"] == sender)`. -/
def pendingOut (mempool : List Tx) (sender : String) : ℚ :=
  ((mempool.filter (fun t => t.from_ = sender)).map Tx.amount).sum

/-- The error taxonomy of the spec: `InvalidInput` for the three
`ValueError`s on malformed input, `InsufficientFunds` for the balance
failure. -/
inductive TxError where
  | invalidInput
  | insufficientFunds
  deriving DecidableEq, Repr

/-- The raw dict submitted to `add_transaction`; each required key may
be absent. -/
structure TxInput where
  from_ : Option String
  to_ : Option String
  amount : Option ℚ
  deriving DecidableEq

deriving instance DecidableEq for Except

/-- Method `Blockchain.add_transaction`: missing-field, empty-address and
non-positive-amount checks raise `InvalidInput`; a non-SYSTEM sender
whose chain balance minus pending mempool debits cannot cover the
amount (within `eps`) raises `InsufficientFunds`; on success the
normalized record is appended to the mempool. -/
def Blockchain.add_transaction (s : Blockchain) (tx : TxInput) :
    Except TxError Blockchain :=
  match tx.from_, tx.to_, tx.amount with
  | some sender, some recipient, some amount =>
    if pyStrip sender = "" ∨ pyStrip recipient = "" then .error .invalidInput
    else if amount ≤ 0 then .error .invalidInput
    else if sender ≠ "SYSTEM" ∧
        chainBalance s.chain sender - pendingOut s.mempool sender < amount - eps then
      .error .insufficientFunds
    else .ok { s with mempool :=
      s.mempool ++ [{ from_ := sender, to_ := recipient, amount := amount }] }
  | _, _, _ => .error .invalidInput

/-- The ledger state observed by the caller after `add_transaction`:
a raised error leaves the state untouched. -/
def Blockchain.add_transaction_run (s : Blockchain) (tx : TxInput) : Blockchain :=
  match s.add_transaction tx with
  | .ok s2 => s2
  | .error _ => s

/-- One step of the balance-replay loop in `is_chain_valid`: reject a
negative amount, debit a non-SYSTEM sender (failing when the running
balance cannot cover the amount within `eps`), credit the recipient. -/
def replayTx (bal : String → ℚ) (t : Tx) : Option (String → ℚ) :=
  if t.amount < 0 then none
  else if t.from_ ≠ "SYSTEM" then
    if bal t.from_ < t.amount - eps then none
    else
      let bal1 := fun a => if a = t.from_ then bal t.from_ - t.amount else bal a
      some (fun a => if a = t.to_ then bal1 t.to_ + t.amount else bal1 a)
  else some (fun a => if a = t.to_ then bal t.to_ + t.amount else bal a)

/-- Replay of the transaction list of a block with a running balance map. -/
def replayTxs (bal : String → ℚ) : List Tx → Option (String → ℚ)
  | [] => some bal
  | t :: rest =>
    match replayTx bal t with
    | none => none
    | some bal2 => replayTxs bal2 rest

/-- The per-block scan of `is_chain_valid`, carrying the predecessor
block (`none` exactly at enumeration index 0), the running enumeration
index, and the running balance map. -/
def validFrom (hashFn : String → String) :
    Option Block → Nat → (String → ℚ) → List Block → Bool
  | _, _, _, [] => true
  | none, i, bal, b :: rest =>
    if b.hash ≠ Block.calculate_hash hashFn b then false
    else
      match replayTxs bal b.transactions with
      | none => false
      | some bal2 => validFrom hashFn (some b) (i + 1) bal2 rest
  | some p, i, bal, b :: rest =>
    if b.hash ≠ Block.calculate_hash hashFn b then false
    else if b.previous_hash ≠ p.hash ∨ b.index ≠ i ∨ b.timestamp ≤ p.timestamp then false
    else
      match replayTxs bal b.transactions with
      | none => false
      | some bal2 => validFrom hashFn (some b) (i + 1) bal2 rest

/-- Method `Blockchain.is_chain_valid` on an explicit chain list. -/
def isChainValidList (hashFn : String → String) (chain : List Block) : Bool :=
  validFrom hashFn none 0 (fun _ => 0) chain

/-- Method `Blockchain.is_chain_valid(chain)`: the Python body starts with
`chain = chain or self.chain`, so an empty (falsy) argument validates
the own chain of the ledger. -/
def Blockchain.is_chain_valid (hashFn : String → String) (s : Blockchain)
    (chain : List Block) : Bool :=
  isChainValidList hashFn (if chain.isEmpty then s.chain else chain)

/-- Method `Blockchain.replace_chain`: adopt the candidate iff it is strictly
longer and valid; return whether it was adopted together with the
resulting ledger state. -/
def Blockchain.replace_chain (hashFn : String → String) (s : Blockchain)
    (new_chain : List Block) : Bool × Blockchain :=
  if s.chain.length < new_chain.length ∧ s.is_chain_valid hashFn new_chain = true then
    (true, { s with chain := new_chain })
  else (false, s)

/-- Method `Blockchain.mine_block(miner_address)`: refuse an empty miner
address; take the first `block_capacity` mempool entries, append the
`SYSTEM → miner` reward, build a block linked to the current head at
the clock instant `now`, run the proof-of-work loop (with fuel), append
the mined block, and drop every mempool entry whose canonical
serialization is in the set of included non-SYSTEM serializations. -/
def Blockchain.mine_block (hashFn : String → String) (fuel : Nat) (now : Int)
    (s : Blockchain) (miner_address : String) : Option (Blockchain × Block) :=
  if pyStrip miner_address = "" then none
  else
    match s.chain.getLast? with
    | none => none
    | some latest =>
      let txs := s.mempool.take s.block_capacity ++
        [{ from_ := "SYSTEM", to_ := miner_address, amount := s.mining_reward }]
      let b0 := Block.new hashFn s.chain.length latest.hash txs now
      match Block.mine_block hashFn s.difficulty fuel b0 with
      | none => none
      | some b =>
        let included := (txs.filter (fun t => t.from_ ≠ "SYSTEM")).map serializeTx
        some ({ s with chain := s.chain ++ [b],
                       mempool := s.mempool.filter
                         (fun t => decide (serializeTx t ∉ included)) }, b)

/-- Honest reachability: every state obtainable from the fresh default
ledger by successful `add_transaction` and `mine_block` calls.  The
wall clock read by `mine_block` is an external input, constrained to
advance strictly between blocks (`datetime.now` on a monotone clock). -/
inductive Reachable (hashFn : String → String) : Blockchain → Prop
  | init : Reachable hashFn (Blockchain.fresh hashFn)
  | addTx (s s2 : Blockchain) (tx : TxInput) :
      Reachable hashFn s → s.add_transaction tx = .ok s2 → Reachable hashFn s2
  | mine (s s2 : Blockchain) (fuel : Nat) (now : Int) (miner : String) (b : Block) :
      Reachable hashFn s →
      (∀ latest, s.chain.getLast? = some latest → latest.timestamp < now) →
      s.mine_block hashFn fuel now miner = some (s2, b) →
      Reachable hashFn s2

/-- All addresses appearing (as sender or recipient) in a transaction
list. -/
def txAddresses (l : List Tx) : Finset String :=
  l.foldr (fun t acc => insert t.from_ (insert t.to_ acc)) ∅

/-- All addresses appearing in any transaction of a chain. -/
def appearingAddresses (chain : List Block) : Finset String :=
  txAddresses (chainTxs chain)

/-- Total supply issued by "SYSTEM" transactions of a transaction
list. -/
def systemIssuedTxs (l : List Tx) : ℚ :=
  ((l.filter (fun t => t.from_ = "SYSTEM")).map Tx.amount).sum

/-- Total supply issued by "SYSTEM" transactions of a chain. -/
def systemIssued (chain : List Block) : ℚ :=
  systemIssuedTxs (chainTxs chain)

/-! Concrete instances used by the example theorems: the hash function
is instantiated with `id` (every structural property proved below holds
for an arbitrary hash function, so any concrete instantiation is
legitimate for exhibiting behaviours). -/

/-- The genesis block under the `id` hash instance. -/
def gBlock : Block := Blockchain.create_genesis_block id

/-- A hash-consistent successor of the genesis block with no
transactions and no proof-of-work. -/
def extBlock : Block := Block.new id 1 gBlock.hash [] 1735689601

/-- An alternative genesis block allocating 9999 to "attacker". -/
def altGenesis : Block :=
  Block.new id 0 "0" [{ from_ := "SYSTEM", to_ := "attacker", amount := 9999 }] 1735689600

/-- A hash-consistent successor of the alternative genesis. -/
def altBlock1 : Block := Block.new id 1 altGenesis.hash [] 1735689601

/-- A successor block whose `previous_hash` does not match genesis. -/
def brokenBlock : Block := Block.new id 1 "broken" [] 1735689601

/-- A transaction submitted twice in the duplicate-removal scenario. -/
def dupTx : Tx := { from_ := "genesis", to_ := "alice", amount := 5 }

/-- A ledger state with `block_capacity = 1`, difficulty 0 and two
mempool copies of the same transaction value. -/
def dupState : Blockchain :=
  { difficulty := 0, mining_reward := 50, block_capacity := 1,
    chain := [gBlock], mempool := [dupTx, dupTx], nodes := ∅ }

/-- The block mined from `dupState` (difficulty 0, so nonce 0). -/
def minedB : Block :=
  Block.new id 1 gBlock.hash [dupTx, { from_ := "SYSTEM", to_ := "bob", amount := 50 }]
    1735689601

/-- The ledger state after mining `dupState`. -/
def dupStateAfter : Blockchain :=
  { difficulty := 0, mining_reward := 50, block_capacity := 1,
    chain := [gBlock, minedB], mempool := [], nodes := ∅ }

/-- First transaction of the permutation example. -/
def permTxA : Tx := { from_ := "alice", to_ := "bob", amount := 1 }

/-- Second transaction of the permutation example. -/
def permTxB : Tx := { from_ := "carol", to_ := "dave", amount := 2 }

/-- A block holding the two example transactions in one order. -/
def permBlockA : Block := Block.new id 2 "p" [permTxA, permTxB] 7

/-- The inductive invariant carried by every honestly produced ledger
state: the chain validates, it is nonempty, the configured reward is
nonnegative, mempool amounts are positive, and each non-SYSTEM
pending debits of each sender fit inside its chain balance plus the
tolerance. -/
def LedgerInv (hashFn : String → String) (s : Blockchain) : Prop :=
  isChainValidList hashFn s.chain = true ∧
  s.chain ≠ [] ∧
  0 ≤ s.mining_reward ∧
  (∀ t ∈ s.mempool, 0 < t.amount) ∧
  (∀ a, a ≠ "SYSTEM" → pendingOut s.mempool a ≤ chainBalance s.chain a + eps)

/-! ## Basic lemmas about blocks and the mining loop -/

theorem Block.new_fields (hashFn : String → String) (index : Nat) (previous_hash : String)
    (transactions : List Tx) (timestamp : Int) :
    (Block.new hashFn index previous_hash transactions timestamp).index = index ∧
    (Block.new hashFn index previous_hash transactions timestamp).previous_hash = previous_hash ∧
    (Block.new hashFn index previous_hash transactions timestamp).timestamp = timestamp ∧
    (Block.new hashFn index previous_hash transactions timestamp).transactions = transactions :=
  ⟨rfl, rfl, rfl, rfl⟩

theorem Block.new_hash_consistent (hashFn : String → String) (index : Nat)
    (previous_hash : String) (transactions : List Tx) (timestamp : Int) :
    (Block.new hashFn index previous_hash transactions timestamp).hash =
      Block.calculate_hash hashFn (Block.new hashFn index previous_hash transactions timestamp) :=
  rfl

theorem Block.mineStep_hash_consistent (hashFn : String → String) (b : Block) :
    (Block.mineStep hashFn b).hash =
      Block.calculate_hash hashFn (Block.mineStep hashFn b) :=
  rfl

theorem Block.mineStep_fields (hashFn : String → String) (b : Block) :
    (Block.mineStep hashFn b).index = b.index ∧
    (Block.mineStep hashFn b).previous_hash = b.previous_hash ∧
    (Block.mineStep hashFn b).timestamp = b.timestamp ∧
    (Block.mineStep hashFn b).transactions = b.transactions :=
  ⟨rfl, rfl, rfl, rfl⟩

/-- The proof-of-work loop only exits once the target is met, and it
re-establishes hash consistency at every nonce bump, so a successful
run preserves all payload fields, returns a block whose first
`difficulty` characters are `'0'`, and keeps the stored hash equal to
the recomputed hash whenever it was equal on entry. -/
theorem Block.mine_block_spec (hashFn : String → String) (difficulty : Nat) :
    ∀ (fuel : Nat) (b b' : Block), Block.mine_block hashFn difficulty fuel b = some b' →
      b'.hash.take difficulty = zeros difficulty ∧
      (b.hash = Block.calculate_hash hashFn b → b'.hash = Block.calculate_hash hashFn b') ∧
      b'.index = b.index ∧ b'.previous_hash = b.previous_hash ∧
      b'.timestamp = b.timestamp ∧ b'.transactions = b.transactions := by
  intro fuel
  induction fuel with
  | zero =>
    intro b b' h
    unfold Block.mine_block at h
    by_cases htgt : b.hash.take difficulty = zeros difficulty
    · rw [if_pos htgt] at h
      cases h
      exact ⟨htgt, fun hc => hc, rfl, rfl, rfl, rfl⟩
    · rw [if_neg htgt] at h
      cases h
  | succ n ih =>
    intro b b' h
    unfold Block.mine_block at h
    by_cases htgt : b.hash.take difficulty = zeros difficulty
    · rw [if_pos htgt] at h
      cases h
      exact ⟨htgt, fun hc => hc, rfl, rfl, rfl, rfl⟩
    · rw [if_neg htgt] at h
      obtain ⟨h1, h2, h3, h4, h5, h6⟩ := ih (Block.mineStep hashFn b) b' h
      exact ⟨h1, fun _ => h2 rfl, h3, h4, h5, h6⟩

/-! ## Balance bookkeeping lemmas -/

theorem deltaList_nil (a : String) : deltaList a [] = 0 := rfl

theorem deltaList_cons (a : String) (t : Tx) (l : List Tx) :
    deltaList a (t :: l) = txDelta a t + deltaList a l := by
  simp [deltaList]

theorem deltaList_append (a : String) (l m : List Tx) :
    deltaList a (l ++ m) = deltaList a l + deltaList a m := by
  simp [deltaList]

theorem chainTxs_append (c d : List Block) :
    chainTxs (c ++ d) = chainTxs c ++ chainTxs d := by
  simp [chainTxs]

theorem chainBalance_append (c d : List Block) (a : String) :
    chainBalance (c ++ d) a = chainBalance c a + deltaList a (chainTxs d) := by
  simp [chainBalance, chainTxs_append, deltaList_append]

theorem pendingOut_nil (a : String) : pendingOut [] a = 0 := rfl

theorem pendingOut_cons (t : Tx) (l : List Tx) (a : String) :
    pendingOut (t :: l) a = (if t.from_ = a then t.amount else 0) + pendingOut l a := by
  by_cases h : t.from_ = a <;> simp [pendingOut, h]

theorem pendingOut_append (l m : List Tx) (a : String) :
    pendingOut (l ++ m) a = pendingOut l a + pendingOut m a := by
  simp [pendingOut, List.filter_append]

theorem pendingOut_nonneg (l : List Tx) (a : String)
    (h : ∀ t ∈ l, 0 ≤ t.amount) : 0 ≤ pendingOut l a := by
  induction l with
  | nil => simp [pendingOut_nil]
  | cons t rest ih =>
    rw [pendingOut_cons]
    have h1 : 0 ≤ t.amount := h t (List.mem_cons_self t rest)
    have h2 : 0 ≤ pendingOut rest a := ih (fun u hu => h u (List.mem_cons_of_mem t hu))
    by_cases hf : t.from_ = a
    · rw [if_pos hf]; linarith
    · rw [if_neg hf]; linarith

theorem pendingOut_filter_le (l : List Tx) (p : Tx → Bool) (a : String)
    (h : ∀ t ∈ l, 0 ≤ t.amount) : pendingOut (l.filter p) a ≤ pendingOut l a := by
  induction l with
  | nil => simp [pendingOut_nil]
  | cons t rest ih =>
    have h1 : 0 ≤ t.amount := h t (List.mem_cons_self t rest)
    have h2 := ih (fun u hu => h u (List.mem_cons_of_mem t hu))
    by_cases hp : p t
    · rw [List.filter_cons_of_pos hp, pendingOut_cons, pendingOut_cons]
      linarith
    · rw [List.filter_cons_of_neg hp, pendingOut_cons]
      by_cases hf : t.from_ = a
      · rw [if_pos hf]; linarith
      · rw [if_neg hf]; linarith

theorem pendingOut_eq_zero (l : List Tx) (a : String)
    (h : ∀ t ∈ l, t.from_ ≠ a) : pendingOut l a = 0 := by
  induction l with
  | nil => rfl
  | cons t rest ih =>
    rw [pendingOut_cons, if_neg (h t (List.mem_cons_self t rest)),
      ih (fun u hu => h u (List.mem_cons_of_mem t hu))]
    ring

/-- For a non-SYSTEM address the net balance contribution of a list of
nonnegative transactions is bounded below by minus its debits. -/
theorem deltaList_ge_neg_pendingOut (l : List Tx) (a : String)
    (h : ∀ t ∈ l, 0 ≤ t.amount) :
    -pendingOut l a ≤ deltaList a l := by
  induction l with
  | nil => simp [pendingOut_nil, deltaList_nil]
  | cons t rest ih =>
    have h1 : 0 ≤ t.amount := h t (List.mem_cons_self t rest)
    have h2 := ih (fun u hu => h u (List.mem_cons_of_mem t hu))
    rw [pendingOut_cons, deltaList_cons]
    have hd : -(if t.from_ = a then t.amount else 0) ≤ txDelta a t := by
      unfold txDelta
      by_cases hf : t.from_ = a
      · by_cases hs : t.from_ = a ∧ t.from_ ≠ "SYSTEM"
        · rw [if_pos hf, if_pos hs]
          by_cases ht : t.to_ = a
          · rw [if_pos ht]; linarith
          · rw [if_neg ht]; linarith
        · rw [if_pos hf, if_neg hs]
          by_cases ht : t.to_ = a
          · rw [if_pos ht]; linarith
          · rw [if_neg ht]; linarith
      · have hs : ¬(t.from_ = a ∧ t.from_ ≠ "SYSTEM") := fun hc => hf hc.1
        rw [if_neg hf, if_neg hs]
        by_cases ht : t.to_ = a
        · rw [if_pos ht]; linarith
        · rw [if_neg ht]; linarith
    linarith

/-! ## Replay lemmas -/

/-- A transaction with nonnegative amount lowers the balance of an address
by at most its debit. -/
theorem txDelta_ge (t : Tx) (a : String) (h0 : 0 ≤ t.amount) :
    -(if t.from_ = a then t.amount else 0) ≤ txDelta a t := by
  unfold txDelta
  by_cases hf : t.from_ = a
  · by_cases hs : t.from_ = a ∧ t.from_ ≠ "SYSTEM"
    · rw [if_pos hf, if_pos hs]
      by_cases ht : t.to_ = a
      · rw [if_pos ht]; linarith
      · rw [if_neg ht]; linarith
    · rw [if_pos hf, if_neg hs]
      by_cases ht : t.to_ = a
      · rw [if_pos ht]; linarith
      · rw [if_neg ht]; linarith
  · have hs : ¬(t.from_ = a ∧ t.from_ ≠ "SYSTEM") := fun hc => hf hc.1
    rw [if_neg hf, if_neg hs]
    by_cases ht : t.to_ = a
    · rw [if_pos ht]; linarith
    · rw [if_neg ht]; linarith

theorem replayTx_nonneg (bal bal2 : String → ℚ) (t : Tx)
    (h : replayTx bal t = some bal2) : 0 ≤ t.amount := by
  unfold replayTx at h
  by_cases hneg : t.amount < 0
  · rw [if_pos hneg] at h; cases h
  · linarith [not_lt.mp hneg]

/-- The replay step succeeds when the amount is nonnegative and a
running balance of a non-SYSTEM sender covers it within the tolerance. -/
theorem replayTx_isSome (bal : String → ℚ) (t : Tx) (h0 : 0 ≤ t.amount)
    (hf : t.from_ ≠ "SYSTEM" → ¬bal t.from_ < t.amount - eps) :
    (replayTx bal t).isSome := by
  unfold replayTx
  rw [if_neg (not_lt.mpr h0)]
  by_cases hsys : t.from_ ≠ "SYSTEM"
  · rw [if_pos hsys, if_neg (hf hsys)]; rfl
  · rw [if_neg hsys]; rfl

/-- A successful replay step moves the balance map by exactly the
per-transaction `txDelta`. -/
theorem replayTx_delta (bal bal2 : String → ℚ) (t : Tx)
    (h : replayTx bal t = some bal2) : ∀ a, bal2 a = bal a + txDelta a t := by
  intro a
  unfold replayTx at h
  by_cases hneg : t.amount < 0
  · rw [if_pos hneg] at h; cases h
  · rw [if_neg hneg] at h
    by_cases hsys : t.from_ ≠ "SYSTEM"
    · rw [if_pos hsys] at h
      by_cases hfunds : bal t.from_ < t.amount - eps
      · rw [if_pos hfunds] at h; cases h
      · rw [if_neg hfunds] at h
        cases h
        simp only [txDelta]
        by_cases hto : a = t.to_
        · have hto2 : t.to_ = a := hto.symm
          rw [if_pos hto, if_pos hto2]
          by_cases haf : a = t.from_
          · have hff : t.to_ = t.from_ := hto.symm.trans haf
            have hd : t.from_ = a ∧ t.from_ ≠ "SYSTEM" := ⟨haf.symm, hsys⟩
            rw [if_pos hff, if_pos hd, haf]
            ring
          · have hff : ¬t.to_ = t.from_ := fun hc => haf (hto.trans hc)
            have hd : ¬(t.from_ = a ∧ t.from_ ≠ "SYSTEM") := fun hc => haf hc.1.symm
            rw [if_neg hff, if_neg hd, hto]
            ring
        · have hcred : ¬t.to_ = a := fun hc => hto hc.symm
          rw [if_neg hto, if_neg hcred]
          by_cases haf : a = t.from_
          · have hd : t.from_ = a ∧ t.from_ ≠ "SYSTEM" := ⟨haf.symm, hsys⟩
            rw [if_pos haf, if_pos hd, haf]
            ring
          · have hd : ¬(t.from_ = a ∧ t.from_ ≠ "SYSTEM") := fun hc => haf hc.1.symm
            rw [if_neg haf, if_neg hd]
            ring
    · rw [if_neg hsys] at h
      cases h
      simp only [txDelta]
      have hd : ¬(t.from_ = a ∧ t.from_ ≠ "SYSTEM") := fun hc => hc.2 (not_not.mp hsys)
      rw [if_neg hd]
      by_cases hto : a = t.to_
      · have hto2 : t.to_ = a := hto.symm
        rw [if_pos hto, if_pos hto2, hto]
        ring
      · have hcred : ¬t.to_ = a := fun hc => hto hc.symm
        rw [if_neg hto, if_neg hcred]
        ring

theorem replayTxs_delta (l : List Tx) : ∀ (bal bal2 : String → ℚ),
    replayTxs bal l = some bal2 → ∀ a, bal2 a = bal a + deltaList a l := by
  induction l with
  | nil =>
    intro bal bal2 h a
    unfold replayTxs at h
    cases h
    rw [deltaList_nil]
    ring
  | cons t rest ih =>
    intro bal bal2 h a
    unfold replayTxs at h
    cases hstep : replayTx bal t with
    | none => rw [hstep] at h; cases h
    | some bal1 =>
      rw [hstep] at h
      rw [deltaList_cons, ih bal1 bal2 h a, replayTx_delta bal bal1 t hstep a]
      ring

theorem replayTxs_amounts_nonneg (l : List Tx) : ∀ (bal bal2 : String → ℚ),
    replayTxs bal l = some bal2 → ∀ t ∈ l, 0 ≤ t.amount := by
  induction l with
  | nil => intro bal bal2 _ t ht; cases ht
  | cons u rest ih =>
    intro bal bal2 h t ht
    unfold replayTxs at h
    cases hstep : replayTx bal u with
    | none => rw [hstep] at h; cases h
    | some bal1 =>
      rw [hstep] at h
      rcases List.mem_cons.mp ht with h1 | h2
      · rw [h1]; exact replayTx_nonneg bal bal1 u hstep
      · exact ih bal1 bal2 h t h2

/-- Replay safety: if every amount is nonnegative and, for every
non-SYSTEM sender, the total debits of the list fit inside the starting
balance of that sender plus the tolerance, the replay never fails.  This is
the inductive heart of honest-chain validity. -/
theorem replayTxs_isSome (l : List Tx) : ∀ (bal : String → ℚ),
    (∀ t ∈ l, 0 ≤ t.amount) →
    (∀ a, a ≠ "SYSTEM" → pendingOut l a ≤ bal a + eps) →
    (replayTxs bal l).isSome := by
  induction l with
  | nil => intro bal _ _; rfl
  | cons t rest ih =>
    intro bal hamt hdeb
    have ht0 : 0 ≤ t.amount := hamt t (List.mem_cons_self t rest)
    have hrest0 : ∀ u ∈ rest, 0 ≤ u.amount :=
      fun u hu => hamt u (List.mem_cons_of_mem t hu)
    have hrestpo : 0 ≤ pendingOut rest t.from_ := pendingOut_nonneg rest t.from_ hrest0
    have hsome : (replayTx bal t).isSome := by
      apply replayTx_isSome bal t ht0
      intro hsys
      have hbound := hdeb t.from_ hsys
      rw [pendingOut_cons, if_pos rfl] at hbound
      rw [not_lt]
      linarith
    obtain ⟨bal1, hstep⟩ := Option.isSome_iff_exists.mp hsome
    unfold replayTxs
    rw [hstep]
    apply ih bal1 hrest0
    intro a ha
    have hdval := replayTx_delta bal bal1 t hstep a
    have htd := txDelta_ge t a ht0
    have hd := hdeb a ha
    rw [pendingOut_cons] at hd
    by_cases haf : t.from_ = a
    · rw [if_pos haf] at hd htd
      rw [hdval]
      linarith
    · rw [if_neg haf] at hd htd
      rw [hdval]
      linarith

/-! ## Structure of `is_chain_valid` -/

theorem validFrom_nil (hashFn : String → String) (prev : Option Block) (i : Nat)
    (bal : String → ℚ) : validFrom hashFn prev i bal [] = true := by
  cases prev <;> rfl

/-- Inversion for a successful scan step. -/
theorem validFrom_cons (hashFn : String → String) (prev : Option Block) (i : Nat)
    (bal : String → ℚ) (b : Block) (rest : List Block)
    (h : validFrom hashFn prev i bal (b :: rest) = true) :
    b.hash = Block.calculate_hash hashFn b ∧
    (∀ p, prev = some p →
      b.previous_hash = p.hash ∧ b.index = i ∧ p.timestamp < b.timestamp) ∧
    ∃ bal2, replayTxs bal b.transactions = some bal2 ∧
      validFrom hashFn (some b) (i + 1) bal2 rest = true := by
  cases prev with
  | none =>
    unfold validFrom at h
    by_cases hhash : b.hash ≠ Block.calculate_hash hashFn b
    · rw [if_pos hhash] at h; simp at h
    · rw [if_neg hhash] at h
      refine ⟨not_not.mp hhash, fun p hp => Option.noConfusion hp, ?_⟩
      cases hrep : replayTxs bal b.transactions with
      | none => rw [hrep] at h; simp at h
      | some bal2 =>
        rw [hrep] at h
        exact ⟨bal2, rfl, h⟩
  | some p =>
    unfold validFrom at h
    by_cases hhash : b.hash ≠ Block.calculate_hash hashFn b
    · rw [if_pos hhash] at h; simp at h
    · rw [if_neg hhash] at h
      by_cases hlink : b.previous_hash ≠ p.hash ∨ b.index ≠ i ∨ b.timestamp ≤ p.timestamp
      · rw [if_pos hlink] at h; simp at h
      · rw [if_neg hlink] at h
        push_neg at hlink
        refine ⟨not_not.mp hhash, ?_, ?_⟩
        · intro q hq
          cases hq
          exact ⟨hlink.1, hlink.2.1, hlink.2.2⟩
        · cases hrep : replayTxs bal b.transactions with
          | none => rw [hrep] at h; simp at h
          | some bal2 =>
            rw [hrep] at h
            exact ⟨bal2, rfl, h⟩

/-- Introduction for a successful scan step. -/
theorem validFrom_cons_of (hashFn : String → String) (prev : Option Block) (i : Nat)
    (bal bal2 : String → ℚ) (b : Block) (rest : List Block)
    (hhash : b.hash = Block.calculate_hash hashFn b)
    (hlink : ∀ p, prev = some p →
      b.previous_hash = p.hash ∧ b.index = i ∧ p.timestamp < b.timestamp)
    (hrep : replayTxs bal b.transactions = some bal2)
    (hrest : validFrom hashFn (some b) (i + 1) bal2 rest = true) :
    validFrom hashFn prev i bal (b :: rest) = true := by
  have hhash2 : ¬b.hash ≠ Block.calculate_hash hashFn b := not_not.mpr hhash
  cases prev with
  | none =>
    unfold validFrom
    rw [if_neg hhash2, hrep]
    exact hrest
  | some p =>
    obtain ⟨h1, h2, h3⟩ := hlink p rfl
    have hlink2 : ¬(b.previous_hash ≠ p.hash ∨ b.index ≠ i ∨ b.timestamp ≤ p.timestamp) := by
      push_neg
      exact ⟨h1, h2, not_le.mp (not_le.mpr h3)⟩
    unfold validFrom
    rw [if_neg hhash2, if_neg hlink2, hrep]
    exact hrest

theorem validFrom_amounts_nonneg (hashFn : String → String) :
    ∀ (c : List Block) (prev : Option Block) (i : Nat) (bal : String → ℚ),
      validFrom hashFn prev i bal c = true →
      ∀ b ∈ c, ∀ t ∈ b.transactions, 0 ≤ t.amount := by
  intro c
  induction c with
  | nil => intro prev i bal _ b hb; cases hb
  | cons x rest ih =>
    intro prev i bal h b hb t ht
    obtain ⟨_, _, bal2, hrep, hrest⟩ := validFrom_cons hashFn prev i bal x rest h
    rcases List.mem_cons.mp hb with h1 | h2
    · subst h1
      exact replayTxs_amounts_nonneg b.transactions bal bal2 hrep t ht
    · exact ih (some x) (i + 1) bal2 hrest b h2 t ht

/-- A valid scan enforces the hash link and the strict timestamp
increase between every pair of adjacent blocks. -/
theorem validFrom_chain (hashFn : String → String) :
    ∀ (c : List Block) (prev : Option Block) (i : Nat) (bal : String → ℚ),
      validFrom hashFn prev i bal c = true →
      List.Chain' (fun p b => b.previous_hash = p.hash ∧ p.timestamp < b.timestamp) c := by
  intro c
  induction c with
  | nil => intro prev i bal _; exact List.chain'_nil
  | cons x rest ih =>
    intro prev i bal h
    obtain ⟨_, _, bal2, hrep, hrest⟩ := validFrom_cons hashFn prev i bal x rest h
    rw [List.chain'_cons']
    constructor
    · intro y hy
      cases rest with
      | nil => cases hy
      | cons z rest2 =>
        have hz : y = z := by
          simp only [List.head?_cons, Option.mem_def, Option.some_inj] at hy
          exact hy.symm
        subst hz
        obtain ⟨_, hlink, _⟩ := validFrom_cons hashFn (some x) (i + 1) bal2 y rest2 hrest
        obtain ⟨l1, _, l3⟩ := hlink x rfl
        exact ⟨l1, l3⟩
    · exact ih (some x) (i + 1) bal2 hrest

/-- Every block of a valid scan has a self-consistent stored hash. -/
theorem validFrom_hashes (hashFn : String → String) :
    ∀ (c : List Block) (prev : Option Block) (i : Nat) (bal : String → ℚ),
      validFrom hashFn prev i bal c = true →
      ∀ b ∈ c, b.hash = Block.calculate_hash hashFn b := by
  intro c
  induction c with
  | nil => intro prev i bal _ b hb; cases hb
  | cons x rest ih =>
    intro prev i bal h b hb
    obtain ⟨hhash, _, bal2, hrep, hrest⟩ := validFrom_cons hashFn prev i bal x rest h
    rcases List.mem_cons.mp hb with h1 | h2
    · subst h1; exact hhash
    · exact ih (some x) (i + 1) bal2 hrest b h2

/-- Appending one block to a valid scan stays valid when the new block
is hash-consistent, links to the last block with the next index and a
strictly later timestamp, and its transactions replay successfully
from the accumulated balances. -/
theorem validFrom_snoc (hashFn : String → String) (b : Block) :
    ∀ (c : List Block) (prev : Option Block) (i : Nat) (bal : String → ℚ) (p : Block),
      validFrom hashFn prev i bal c = true →
      c.getLast? = some p →
      b.hash = Block.calculate_hash hashFn b →
      b.previous_hash = p.hash →
      b.index = i + c.length →
      p.timestamp < b.timestamp →
      (replayTxs (fun a => bal a + deltaList a (chainTxs c)) b.transactions).isSome →
      validFrom hashFn prev i bal (c ++ [b]) = true := by
  intro c
  induction c with
  | nil =>
    intro prev i bal p _ hlast
    cases hlast
  | cons x rest ih =>
    intro prev i bal p h hlast hhash hprev hidx hts hrep
    obtain ⟨hxhash, hxlink, bal2, hxrep, hxrest⟩ :=
      validFrom_cons hashFn prev i bal x rest h
    have hbal2 : ∀ a, bal2 a = bal a + deltaList a x.transactions :=
      replayTxs_delta x.transactions bal bal2 hxrep
    rw [List.cons_append]
    apply validFrom_cons_of hashFn prev i bal bal2 x (rest ++ [b]) hxhash hxlink hxrep
    cases rest with
    | nil =>
      have hp : p = x := by
        simp only [List.getLast?_singleton, Option.some_inj] at hlast
        exact hlast.symm
      subst hp
      have hrep2 : (replayTxs bal2 b.transactions).isSome := by
        have hfun : (fun a => bal a + deltaList a (chainTxs [p])) = bal2 := by
          funext a
          rw [hbal2 a]
          simp [chainTxs]
        rw [hfun] at hrep
        exact hrep
      obtain ⟨bal3, hstep3⟩ := Option.isSome_iff_exists.mp hrep2
      simp only [List.nil_append]
      apply validFrom_cons_of hashFn (some p) (i + 1) bal2 bal3 b [] hhash ?_ hstep3
        (validFrom_nil hashFn (some b) (i + 2) bal3)
      intro q hq
      cases hq
      refine ⟨hprev, ?_, hts⟩
      rw [hidx]
      simp
    | cons y rest2 =>
      apply ih (some x) (i + 1) bal2 p hxrest
      · rw [List.getLast?_cons_cons] at hlast
        exact hlast
      · exact hhash
      · exact hprev
      · rw [hidx]
        simp only [List.length_cons]
        omega
      · exact hts
      · have hfun : (fun a => bal2 a + deltaList a (chainTxs (y :: rest2))) =
            (fun a => bal a + deltaList a (chainTxs (x :: y :: rest2))) := by
          funext a
          rw [hbal2 a]
          have hct : chainTxs (x :: y :: rest2) = x.transactions ++ chainTxs (y :: rest2) := by
            simp [chainTxs]
          rw [hct, deltaList_append]
          ring
        rw [hfun]
        exact hrep

/-- Top-level corollary of `validFrom_snoc` for whole chains: the
accumulated balances of the scan are exactly `chainBalance`. -/
theorem isChainValidList_snoc (hashFn : String → String) (c : List Block) (b p : Block)
    (hv : isChainValidList hashFn c = true)
    (hlast : c.getLast? = some p)
    (hhash : b.hash = Block.calculate_hash hashFn b)
    (hprev : b.previous_hash = p.hash)
    (hidx : b.index = c.length)
    (hts : p.timestamp < b.timestamp)
    (hrep : (replayTxs (chainBalance c) b.transactions).isSome) :
    isChainValidList hashFn (c ++ [b]) = true := by
  unfold isChainValidList at hv ⊢
  apply validFrom_snoc hashFn b c none 0 (fun _ => 0) p hv hlast hhash hprev ?_ hts ?_
  · rw [hidx]; omega
  · have hfun : (fun a => (0 : ℚ) + deltaList a (chainTxs c)) = chainBalance c := by
      funext a
      simp [chainBalance]
    rw [hfun]
    exact hrep

/-! ## `mine_block` characterization -/

/-- Inversion of a successful `Blockchain.mine_block` call: the mined
block carries the FIFO mempool prefix plus the reward, links to the
head, is appended, and the mempool is pruned by serialized-value set
membership; the configuration and peer set are untouched. -/
theorem Blockchain.mine_block_some (hashFn : String → String) (fuel : Nat) (now : Int)
    (s s2 : Blockchain) (miner : String) (b : Block)
    (h : s.mine_block hashFn fuel now miner = some (s2, b)) :
    ∃ latest, s.chain.getLast? = some latest ∧
      b.transactions = s.mempool.take s.block_capacity ++
        [{ from_ := "SYSTEM", to_ := miner, amount := s.mining_reward }] ∧
      b.previous_hash = latest.hash ∧
      b.index = s.chain.length ∧
      b.timestamp = now ∧
      b.hash = Block.calculate_hash hashFn b ∧
      b.hash.take s.difficulty = zeros s.difficulty ∧
      s2.chain = s.chain ++ [b] ∧
      s2.mempool = s.mempool.filter (fun t => decide (serializeTx t ∉
        ((s.mempool.take s.block_capacity ++
          [({ from_ := "SYSTEM", to_ := miner, amount := s.mining_reward } : Tx)]).filter
            (fun t => t.from_ ≠ "SYSTEM")).map serializeTx)) ∧
      s2.difficulty = s.difficulty ∧ s2.mining_reward = s.mining_reward ∧
      s2.block_capacity = s.block_capacity ∧ s2.nodes = s.nodes := by
  unfold Blockchain.mine_block at h
  by_cases hminer : pyStrip miner = ""
  · rw [if_pos hminer] at h; cases h
  · rw [if_neg hminer] at h
    cases hlast : s.chain.getLast? with
    | none => rw [hlast] at h; cases h
    | some latest =>
      rw [hlast] at h
      simp only at h
      cases hloop : Block.mine_block hashFn s.difficulty fuel
          (Block.new hashFn s.chain.length latest.hash
            (s.mempool.take s.block_capacity ++
              [{ from_ := "SYSTEM", to_ := miner, amount := s.mining_reward }]) now) with
      | none => rw [hloop] at h; cases h
      | some bm =>
        rw [hloop] at h
        obtain ⟨hzero, hcons, hbidx, hbprev, hbts, hbtxs⟩ :=
          Block.mine_block_spec hashFn s.difficulty fuel _ bm hloop
        cases h
        refine ⟨latest, rfl, ?_, ?_, ?_, ?_, ?_, ?_, rfl, ?_, rfl, rfl, rfl, rfl⟩
        · exact hbtxs.trans rfl
        · exact hbprev.trans rfl
        · exact hbidx.trans rfl
        · exact hbts.trans rfl
        · exact hcons rfl
        · exact hzero
        · rfl

/-! ## `add_transaction` characterization -/

/-- Inversion of a successful `add_transaction`: all fields were
present and well-formed, a non-SYSTEM sender passed the funds check,
and the normalized record was appended to the mempool. -/
theorem Blockchain.add_transaction_ok (s s2 : Blockchain) (tx : TxInput)
    (h : s.add_transaction tx = .ok s2) :
    ∃ sender recipient amount,
      tx.from_ = some sender ∧ tx.to_ = some recipient ∧ tx.amount = some amount ∧
      pyStrip sender ≠ "" ∧ pyStrip recipient ≠ "" ∧ 0 < amount ∧
      (sender ≠ "SYSTEM" →
        ¬(chainBalance s.chain sender - pendingOut s.mempool sender < amount - eps)) ∧
      s2 = { s with mempool :=
        s.mempool ++ [{ from_ := sender, to_ := recipient, amount := amount }] } := by
  unfold Blockchain.add_transaction at h
  cases hf : tx.from_ with
  | none => rw [hf] at h; cases htt : tx.to_ <;> cases hta : tx.amount <;>
      rw [htt, hta] at h <;> cases h
  | some sender =>
    cases htt : tx.to_ with
    | none => rw [hf, htt] at h; cases hta : tx.amount <;> rw [hta] at h <;> cases h
    | some recipient =>
      cases hta : tx.amount with
      | none => rw [hf, htt, hta] at h; cases h
      | some amount =>
        rw [hf, htt, hta] at h
        simp only [] at h
        by_cases hempty : pyStrip sender = "" ∨ pyStrip recipient = ""
        · rw [if_pos hempty] at h; cases h
        · rw [if_neg hempty] at h
          push_neg at hempty
          by_cases hpos : amount ≤ 0
          · rw [if_pos hpos] at h; cases h
          · rw [if_neg hpos] at h
            by_cases hfunds : sender ≠ "SYSTEM" ∧
                chainBalance s.chain sender - pendingOut s.mempool sender < amount - eps
            · rw [if_pos hfunds] at h; cases h
            · rw [if_neg hfunds] at h
              cases h
              refine ⟨sender, recipient, amount, rfl, rfl, rfl, hempty.1, hempty.2,
                not_le.mp hpos, ?_, rfl⟩
              intro hsys hlt
              exact hfunds ⟨hsys, hlt⟩

/-! ## Invariant preservation -/

theorem LedgerInv_add_transaction (hashFn : String → String) (s s2 : Blockchain)
    (tx : TxInput) (hinv : LedgerInv hashFn s)
    (h : s.add_transaction tx = .ok s2) : LedgerInv hashFn s2 := by
  obtain ⟨hvalid, hne, hrew, hamts, hpend⟩ := hinv
  obtain ⟨sender, recipient, amount, _, _, _, _, _, hamt, hfunds, hs2⟩ :=
    Blockchain.add_transaction_ok s s2 tx h
  subst hs2
  refine ⟨hvalid, hne, hrew, ?_, ?_⟩
  · intro t ht
    rcases List.mem_append.mp ht with h1 | h2
    · exact hamts t h1
    · rcases List.mem_singleton.mp h2 with rfl
      exact hamt
  · intro a ha
    rw [pendingOut_append, pendingOut_cons, pendingOut_nil]
    have hbase := hpend a ha
    by_cases haf : sender = a
    · rw [if_pos haf]
      have hsys : sender ≠ "SYSTEM" := fun hc => ha (haf ▸ hc)
      have := not_lt.mp (hfunds hsys)
      rw [haf] at this
      linarith
    · rw [if_neg haf]
      linarith

theorem LedgerInv_mine_block (hashFn : String → String) (fuel : Nat) (now : Int)
    (s s2 : Blockchain) (miner : String) (b : Block)
    (hinv : LedgerInv hashFn s)
    (hclock : ∀ latest, s.chain.getLast? = some latest → latest.timestamp < now)
    (h : s.mine_block hashFn fuel now miner = some (s2, b)) : LedgerInv hashFn s2 := by
  obtain ⟨hvalid, hne, hrew, hamts, hpend⟩ := hinv
  obtain ⟨latest, hlast, hbtxs, hbprev, hbidx, hbts, hbhash, hbzero,
    hchain2, hmem2, hdiff2, hrew2, hcap2, hnodes2⟩ :=
    Blockchain.mine_block_some hashFn fuel now s s2 miner b h
  have hPamts : ∀ t ∈ s.mempool.take s.block_capacity, 0 ≤ t.amount :=
    fun t ht => le_of_lt (hamts t (List.mem_of_mem_take ht))
  have htxsamts : ∀ t ∈ b.transactions, 0 ≤ t.amount := by
    rw [hbtxs]
    intro t ht
    rcases List.mem_append.mp ht with h1 | h2
    · exact hPamts t h1
    · rcases List.mem_singleton.mp h2 with rfl
      exact hrew
  have hdrop : ∀ t ∈ s.mempool.drop s.block_capacity, 0 ≤ t.amount :=
    fun t ht => le_of_lt (hamts t (List.mem_of_mem_drop ht))
  have hsplit : s.mempool.take s.block_capacity ++ s.mempool.drop s.block_capacity =
      s.mempool := List.take_append_drop s.block_capacity s.mempool
  have hptxs : ∀ a, a ≠ "SYSTEM" →
      pendingOut b.transactions a = pendingOut (s.mempool.take s.block_capacity) a := by
    intro a ha
    rw [hbtxs, pendingOut_append, pendingOut_cons, pendingOut_nil]
    have hne2 : ({ from_ := "SYSTEM", to_ := miner, amount := s.mining_reward } : Tx).from_ ≠ a :=
      fun hc => ha hc.symm
    rw [if_neg hne2]
    ring
  have hPbound : ∀ a, a ≠ "SYSTEM" →
      pendingOut (s.mempool.take s.block_capacity) a +
        pendingOut (s.mempool.drop s.block_capacity) a ≤ chainBalance s.chain a + eps := by
    intro a ha
    have := hpend a ha
    rw [← hsplit, pendingOut_append] at this
    exact this
  have hrep : (replayTxs (chainBalance s.chain) b.transactions).isSome := by
    apply replayTxs_isSome b.transactions (chainBalance s.chain) htxsamts
    intro a ha
    rw [hptxs a ha]
    have hd0 : 0 ≤ pendingOut (s.mempool.drop s.block_capacity) a :=
      pendingOut_nonneg _ a hdrop
    linarith [hPbound a ha]
  have hvalid2 : isChainValidList hashFn s2.chain = true := by
    rw [hchain2]
    exact isChainValidList_snoc hashFn s.chain b latest hvalid hlast hbhash hbprev hbidx
      (by rw [hbts]; exact hclock latest hlast) hrep
  refine ⟨hvalid2, by rw [hchain2]; simp, by rw [hrew2]; exact hrew, ?_, ?_⟩
  · intro t ht
    rw [hmem2] at ht
    exact hamts t (List.mem_filter.mp ht).1
  · intro a ha
    rw [hmem2, hchain2]
    have hcb : chainBalance (s.chain ++ [b]) a =
        chainBalance s.chain a + deltaList a b.transactions := by
      rw [chainBalance_append]
      have : chainTxs [b] = b.transactions := by simp [chainTxs]
      rw [this]
    rw [hcb]
    have hdl : -pendingOut b.transactions a ≤ deltaList a b.transactions :=
      deltaList_ge_neg_pendingOut b.transactions a htxsamts
    rw [hptxs a ha] at hdl
    have hfil : s.mempool.filter (fun t => decide (serializeTx t ∉
        ((s.mempool.take s.block_capacity ++
          [({ from_ := "SYSTEM", to_ := miner, amount := s.mining_reward } : Tx)]).filter
            (fun t => t.from_ ≠ "SYSTEM")).map serializeTx)) =
        (s.mempool.take s.block_capacity).filter (fun t => decide (serializeTx t ∉
          ((s.mempool.take s.block_capacity ++
            [({ from_ := "SYSTEM", to_ := miner, amount := s.mining_reward } : Tx)]).filter
              (fun t => t.from_ ≠ "SYSTEM")).map serializeTx)) ++
        (s.mempool.drop s.block_capacity).filter (fun t => decide (serializeTx t ∉
          ((s.mempool.take s.block_capacity ++
            [({ from_ := "SYSTEM", to_ := miner, amount := s.mining_reward } : Tx)]).filter
              (fun t => t.from_ ≠ "SYSTEM")).map serializeTx)) := by
      rw [← List.filter_append, hsplit]
    rw [hfil, pendingOut_append]
    have hz : pendingOut ((s.mempool.take s.block_capacity).filter (fun t =>
        decide (serializeTx t ∉ ((s.mempool.take s.block_capacity ++
          [({ from_ := "SYSTEM", to_ := miner, amount := s.mining_reward } : Tx)]).filter
            (fun t => t.from_ ≠ "SYSTEM")).map serializeTx))) a = 0 := by
      apply pendingOut_eq_zero
      intro t ht hta
      obtain ⟨htP, htK⟩ := List.mem_filter.mp ht
      have htsys : t.from_ ≠ "SYSTEM" := by rw [hta]; exact ha
      have htxsmem : t ∈ (s.mempool.take s.block_capacity ++
          [({ from_ := "SYSTEM", to_ := miner, amount := s.mining_reward } : Tx)]).filter
            (fun t => t.from_ ≠ "SYSTEM") :=
        List.mem_filter.mpr ⟨List.mem_append_left _ htP, decide_eq_true htsys⟩
      have hser : serializeTx t ∈ ((s.mempool.take s.block_capacity ++
          [({ from_ := "SYSTEM", to_ := miner, amount := s.mining_reward } : Tx)]).filter
            (fun t => t.from_ ≠ "SYSTEM")).map serializeTx :=
        List.mem_map_of_mem serializeTx htxsmem
      exact (of_decide_eq_true htK) hser
    have hle : pendingOut ((s.mempool.drop s.block_capacity).filter (fun t =>
        decide (serializeTx t ∉ ((s.mempool.take s.block_capacity ++
          [({ from_ := "SYSTEM", to_ := miner, amount := s.mining_reward } : Tx)]).filter
            (fun t => t.from_ ≠ "SYSTEM")).map serializeTx))) a ≤
        pendingOut (s.mempool.drop s.block_capacity) a :=
      pendingOut_filter_le _ _ a hdrop
    rw [hz]
    linarith [hPbound a ha]

/-! ## The fresh ledger satisfies the invariant -/

theorem isChainValid_genesis (hashFn : String → String) :
    isChainValidList hashFn [Blockchain.create_genesis_block hashFn] = true := by
  have hhash : (Blockchain.create_genesis_block hashFn).hash =
      Block.calculate_hash hashFn (Blockchain.create_genesis_block hashFn) := rfl
  have hrep : (replayTxs (fun _ => (0 : ℚ))
      (Blockchain.create_genesis_block hashFn).transactions).isSome := by
    apply replayTxs_isSome
    · intro t ht
      rcases List.mem_singleton.mp ht with rfl
      norm_num
    · intro a ha
      show pendingOut [{ from_ := "SYSTEM", to_ := "genesis", amount := (5000 : ℚ) }] a ≤
        (0 : ℚ) + eps
      rw [pendingOut_cons, pendingOut_nil]
      have hne : ({ from_ := "SYSTEM", to_ := "genesis", amount := (5000 : ℚ) } : Tx).from_ ≠ a :=
        fun hc => ha hc.symm
      rw [if_neg hne]
      norm_num [eps]
  obtain ⟨bal2, hrep2⟩ := Option.isSome_iff_exists.mp hrep
  unfold isChainValidList validFrom
  rw [if_neg (not_not.mpr hhash), hrep2]
  exact validFrom_nil hashFn _ 1 bal2

theorem chainBalance_genesis (hashFn : String → String) (a : String) :
    chainBalance [Blockchain.create_genesis_block hashFn] a =
      if a = "genesis" then (5000 : ℚ) else 0 := by
  simp only [chainBalance, chainTxs, Blockchain.create_genesis_block, Block.new,
    List.map_cons, List.map_nil, List.flatten, List.append_nil, deltaList, txDelta,
    List.sum_cons, List.sum_nil]
  by_cases hg : a = "genesis"
  · have h1 : ({ from_ := "SYSTEM", to_ := "genesis", amount := (5000 : ℚ) } : Tx).to_ = a :=
      hg.symm
    rw [if_pos hg, if_pos h1]
    have h2 : ¬(({ from_ := "SYSTEM", to_ := "genesis", amount := (5000 : ℚ) } : Tx).from_ = a ∧
        ({ from_ := "SYSTEM", to_ := "genesis", amount := (5000 : ℚ) } : Tx).from_ ≠ "SYSTEM") :=
      fun hc => hc.2 rfl
    rw [if_neg h2]
    ring
  · have h1 : ({ from_ := "SYSTEM", to_ := "genesis", amount := (5000 : ℚ) } : Tx).to_ ≠ a :=
      fun hc => hg hc.symm
    rw [if_neg hg, if_neg h1]
    have h2 : ¬(({ from_ := "SYSTEM", to_ := "genesis", amount := (5000 : ℚ) } : Tx).from_ = a ∧
        ({ from_ := "SYSTEM", to_ := "genesis", amount := (5000 : ℚ) } : Tx).from_ ≠ "SYSTEM") :=
      fun hc => hc.2 rfl
    rw [if_neg h2]
    ring

theorem LedgerInv_init (hashFn : String → String) (d : Nat) (r : ℚ) (cap : Nat)
    (hr : 0 ≤ r) : LedgerInv hashFn (Blockchain.init hashFn d r cap) := by
  refine ⟨isChainValid_genesis hashFn, by simp [Blockchain.init], hr, ?_, ?_⟩
  · intro t ht
    cases ht
  · intro a ha
    show pendingOut [] a ≤ chainBalance [Blockchain.create_genesis_block hashFn] a + eps
    rw [pendingOut_nil, chainBalance_genesis]
    by_cases hg : a = "genesis"
    · rw [if_pos hg]; norm_num [eps]
    · rw [if_neg hg]; norm_num [eps]

/-- Every honestly reachable ledger state satisfies the invariant. -/
theorem Reachable_inv (hashFn : String → String) (s : Blockchain)
    (h : Reachable hashFn s) : LedgerInv hashFn s := by
  induction h with
  | init => exact LedgerInv_init hashFn 3 50 100 (by norm_num)
  | addTx s1 s2 tx hr hok ih => exact LedgerInv_add_transaction hashFn s1 s2 tx ih hok
  | mine s1 s2 fuel now miner b hr hclock hmine ih =>
    exact LedgerInv_mine_block hashFn fuel now s1 s2 miner b ih hclock hmine

/-! ## Balance conservation -/

theorem txAddresses_mem (l : List Tx) :
    ∀ t ∈ l, t.from_ ∈ txAddresses l ∧ t.to_ ∈ txAddresses l := by
  induction l with
  | nil => intro t ht; cases ht
  | cons u rest ih =>
    intro t ht
    have hshape : txAddresses (u :: rest) =
        insert u.from_ (insert u.to_ (txAddresses rest)) := rfl
    rcases List.mem_cons.mp ht with h1 | h2
    · subst h1
      rw [hshape]
      exact ⟨Finset.mem_insert_self _ _,
        Finset.mem_insert_of_mem (Finset.mem_insert_self _ _)⟩
    · obtain ⟨hf, htt⟩ := ih t h2
      rw [hshape]
      exact ⟨Finset.mem_insert_of_mem (Finset.mem_insert_of_mem hf),
        Finset.mem_insert_of_mem (Finset.mem_insert_of_mem htt)⟩

theorem systemIssuedTxs_cons (t : Tx) (rest : List Tx) :
    systemIssuedTxs (t :: rest) =
      (if t.from_ = "SYSTEM" then t.amount else 0) + systemIssuedTxs rest := by
  unfold systemIssuedTxs
  rw [List.filter_cons]
  by_cases hsys : t.from_ = "SYSTEM"
  · rw [if_pos (decide_eq_true hsys), List.map_cons, List.sum_cons, if_pos hsys]
  · rw [if_neg (fun hc => hsys (of_decide_eq_true hc)), if_neg hsys]
    ring

theorem sum_txDelta (t : Tx) (S : Finset String)
    (hf : t.from_ ∈ S) (ht : t.to_ ∈ S) :
    Finset.sum S (fun a => txDelta a t) = if t.from_ = "SYSTEM" then t.amount else 0 := by
  unfold txDelta
  rw [Finset.sum_sub_distrib]
  have hcred : Finset.sum S (fun a => if t.to_ = a then t.amount else 0) = t.amount := by
    rw [Finset.sum_ite_eq S t.to_ (fun _ => t.amount), if_pos ht]
  rw [hcred]
  by_cases hsys : t.from_ = "SYSTEM"
  · have hdeb : Finset.sum S
        (fun a => if t.from_ = a ∧ t.from_ ≠ "SYSTEM" then t.amount else 0) = 0 :=
      Finset.sum_eq_zero (fun a _ => if_neg (fun hc => hc.2 hsys))
    rw [hdeb, if_pos hsys]
    ring
  · have hdeb : Finset.sum S
        (fun a => if t.from_ = a ∧ t.from_ ≠ "SYSTEM" then t.amount else 0) = t.amount := by
      have hcongr : ∀ a ∈ S, (if t.from_ = a ∧ t.from_ ≠ "SYSTEM" then t.amount else 0) =
          (if t.from_ = a then t.amount else 0) := by
        intro a _
        by_cases hfa : t.from_ = a
        · rw [if_pos ⟨hfa, hsys⟩, if_pos hfa]
        · rw [if_neg (fun hc => hfa hc.1), if_neg hfa]
      rw [Finset.sum_congr rfl hcongr, Finset.sum_ite_eq S t.from_ (fun _ => t.amount),
        if_pos hf]
    rw [hdeb, if_neg hsys]
    ring

theorem sum_deltaList (l : List Tx) : ∀ S : Finset String,
    (∀ t ∈ l, t.from_ ∈ S ∧ t.to_ ∈ S) →
    Finset.sum S (fun a => deltaList a l) = systemIssuedTxs l := by
  induction l with
  | nil =>
    intro S _
    have : (fun a => deltaList a ([] : List Tx)) = (fun _ => (0 : ℚ)) :=
      funext (fun a => deltaList_nil a)
    rw [this]
    simp [systemIssuedTxs]
  | cons t rest ih =>
    intro S hmem
    obtain ⟨hf, htt⟩ := hmem t (List.mem_cons_self t rest)
    have hrest : ∀ u ∈ rest, u.from_ ∈ S ∧ u.to_ ∈ S :=
      fun u hu => hmem u (List.mem_cons_of_mem t hu)
    have hshape : (fun a => deltaList a (t :: rest)) =
        (fun a => txDelta a t + deltaList a rest) :=
      funext (fun a => deltaList_cons a t rest)
    rw [hshape, Finset.sum_add_distrib, ih S hrest, sum_txDelta t S hf htt,
      systemIssuedTxs_cons]

/-! ## Claim theorems -/

/-- C1: For every block, immediately after construction and immediately
after `mine_block(difficulty)` returns, the stored hash field equals
the hash recomputed from the current fields of the block; and after
`mine_block(difficulty)` returns, the first `difficulty` characters of
the block's hash are all '0'. -/
theorem claim_C1 (hashFn : String → String) (index : Nat) (previous_hash : String)
    (transactions : List Tx) (timestamp : Int) (difficulty fuel : Nat) (b b2 : Block) :
    (Block.new hashFn index previous_hash transactions timestamp).hash =
      Block.calculate_hash hashFn
        (Block.new hashFn index previous_hash transactions timestamp) ∧
    (b.hash = Block.calculate_hash hashFn b →
      Block.mine_block hashFn difficulty fuel b = some b2 →
      b2.hash = Block.calculate_hash hashFn b2 ∧
      b2.hash.take difficulty = zeros difficulty) := by
  refine ⟨Block.new_hash_consistent hashFn index previous_hash transactions timestamp, ?_⟩
  intro hcons hmine
  obtain ⟨hzero, hpres, _, _, _, _⟩ :=
    Block.mine_block_spec hashFn difficulty fuel b b2 hmine
  exact ⟨hpres hcons, hzero⟩

theorem claim_C1_witness :
    Block.mine_block (fun _ => "0") 1 5 (Block.new (fun _ => "0") 7 "p" [] 3) =
      some (Block.new (fun _ => "0") 7 "p" [] 3) ∧
    (Block.new (fun _ => "0") 7 "p" [] 3).hash =
      Block.calculate_hash (fun _ => "0") (Block.new (fun _ => "0") 7 "p" [] 3) ∧
    (Block.new (fun _ => "0") 7 "p" [] 3).hash.take 1 = zeros 1 := by
  have hmine : Block.mine_block (fun _ => "0") 1 5 (Block.new (fun _ => "0") 7 "p" [] 3) =
      some (Block.new (fun _ => "0") 7 "p" [] 3) := by
    with_unfolding_all decide
  obtain ⟨hcons, hpost⟩ :=
    claim_C1 (fun _ => "0") 7 "p" [] 3 1 5 (Block.new (fun _ => "0") 7 "p" [] 3)
      (Block.new (fun _ => "0") 7 "p" [] 3)
  obtain ⟨h1, h2⟩ := hpost hcons hmine
  exact ⟨hmine, h1, h2⟩

/-- C2: `is_chain_valid` returns false whenever the `previous_hash`
field of some block does not equal the hash of its predecessor, the
timestamp of some block is not strictly greater than that of its
predecessor, or some
transaction in some block has a negative amount. -/
theorem claim_C2 (hashFn : String → String) (chain : List Block)
    (h : (∃ i, ∃ hi : i + 1 < chain.length,
        (chain.get ⟨i + 1, hi⟩).previous_hash ≠
          (chain.get ⟨i, Nat.lt_of_succ_lt hi⟩).hash ∨
        ¬(chain.get ⟨i, Nat.lt_of_succ_lt hi⟩).timestamp <
          (chain.get ⟨i + 1, hi⟩).timestamp) ∨
      (∃ b ∈ chain, ∃ t ∈ b.transactions, t.amount < 0)) :
    isChainValidList hashFn chain = false := by
  cases hv : isChainValidList hashFn chain with
  | false => rfl
  | true =>
    exfalso
    unfold isChainValidList at hv
    rcases h with ⟨i, hi, hbad⟩ | ⟨b, hb, t, ht, hneg⟩
    · have hchain := validFrom_chain hashFn chain none 0 (fun _ => 0) hv
      have hrel := List.chain'_iff_get.mp hchain i (by omega)
      rcases hbad with h1 | h2
      · exact h1 hrel.1
      · exact h2 hrel.2
    · have := validFrom_amounts_nonneg hashFn chain none 0 (fun _ => 0) hv b hb t ht
      linarith

theorem claim_C2_witness : isChainValidList id [gBlock, brokenBlock] = false := by
  apply claim_C2 id [gBlock, brokenBlock]
  left
  refine ⟨0, by decide, Or.inl ?_⟩
  with_unfolding_all decide

/-- C3: `is_chain_valid` is true on the one-block genesis chain and on
every chain reachable from the fresh ledger by successful
`add_transaction` and `mine_block` operations (with the mining clock
advancing strictly between blocks). -/
theorem claim_C3 (hashFn : String → String) (s : Blockchain)
    (h : Reachable hashFn s) :
    isChainValidList hashFn [Blockchain.create_genesis_block hashFn] = true ∧
    isChainValidList hashFn s.chain = true :=
  ⟨isChainValid_genesis hashFn, (Reachable_inv hashFn s h).1⟩

theorem claim_C3_witness :
    isChainValidList id [Blockchain.create_genesis_block id] = true ∧
    isChainValidList id (Blockchain.fresh id).chain = true :=
  claim_C3 id (Blockchain.fresh id) Reachable.init

/-- C4: `replace_chain` installs the candidate and returns true exactly
when the candidate is strictly longer than the current chain and passes
`is_chain_valid`; otherwise it returns false and leaves the whole state
unchanged. -/
theorem claim_C4 (hashFn : String → String) (s : Blockchain) (new_chain : List Block) :
    ((s.replace_chain hashFn new_chain).1 = true ↔
      s.chain.length < new_chain.length ∧ s.is_chain_valid hashFn new_chain = true) ∧
    (s.replace_chain hashFn new_chain).2 =
      (if (s.replace_chain hashFn new_chain).1 = true
        then { s with chain := new_chain } else s) := by
  unfold Blockchain.replace_chain
  by_cases hcond : s.chain.length < new_chain.length ∧
      s.is_chain_valid hashFn new_chain = true
  · rw [if_pos hcond]
    exact ⟨⟨fun _ => hcond, fun _ => rfl⟩, by rw [if_pos rfl]⟩
  · rw [if_neg hcond]
    constructor
    · constructor
      · intro hfalse
        cases hfalse
      · intro hc
        exact absurd hc hcond
    · have : ¬(false = true) := by simp
      rw [if_neg this]

theorem claim_C4_witness :
    ((Blockchain.fresh id).replace_chain id [gBlock, extBlock]).1 = true ∧
    ((Blockchain.fresh id).replace_chain id [gBlock, extBlock]).2.chain =
      [gBlock, extBlock] ∧
    ((Blockchain.fresh id).replace_chain id [gBlock]).1 = false ∧
    ((Blockchain.fresh id).replace_chain id [gBlock]).2.chain =
      (Blockchain.fresh id).chain := by
  obtain ⟨hiff, hstate⟩ := claim_C4 id (Blockchain.fresh id) [gBlock, extBlock]
  obtain ⟨hiff2, hstate2⟩ := claim_C4 id (Blockchain.fresh id) [gBlock]
  have h1 : ((Blockchain.fresh id).replace_chain id [gBlock, extBlock]).1 = true :=
    hiff.mpr ⟨by with_unfolding_all decide, by with_unfolding_all decide⟩
  have h2 : ((Blockchain.fresh id).replace_chain id [gBlock]).1 = false := by
    cases hval : ((Blockchain.fresh id).replace_chain id [gBlock]).1 with
    | false => rfl
    | true =>
      have := (hiff2.mp hval).1
      simp [Blockchain.fresh, Blockchain.init] at this
  refine ⟨h1, ?_, h2, ?_⟩
  · rw [hstate, if_pos h1]
  · rw [hstate2, if_neg (by rw [h2]; simp)]

/-- C5: `add_transaction` fails with `InvalidInput` exactly when a
field is missing, an address is empty (whitespace), or the amount is
non-positive; for a well-formed non-SYSTEM sender it fails with
`InsufficientFunds` exactly when the chain balance minus pending
mempool debits cannot cover the amount within the `1e-9` tolerance; a
failure leaves the observed state unchanged, and a success appends
exactly one normalized record to the end of the mempool. -/
theorem claim_C5 (s : Blockchain) (tx : TxInput) :
    (s.add_transaction tx = .error .invalidInput ↔
      tx.from_ = none ∨ tx.to_ = none ∨ tx.amount = none ∨
      (∃ f, tx.from_ = some f ∧ pyStrip f = "") ∨
      (∃ r, tx.to_ = some r ∧ pyStrip r = "") ∨
      (∃ a, tx.amount = some a ∧ a ≤ 0)) ∧
    (∀ f r a, tx.from_ = some f → tx.to_ = some r → tx.amount = some a →
      pyStrip f ≠ "" → pyStrip r ≠ "" → 0 < a → f ≠ "SYSTEM" →
      (s.add_transaction tx = .error .insufficientFunds ↔
        chainBalance s.chain f - pendingOut s.mempool f < a - eps)) ∧
    (∀ e, s.add_transaction tx = .error e → s.add_transaction_run tx = s) ∧
    (∀ s2, s.add_transaction tx = .ok s2 → ∃ f r a,
      tx.from_ = some f ∧ tx.to_ = some r ∧ tx.amount = some a ∧
      s2.mempool = s.mempool ++ [{ from_ := f, to_ := r, amount := a }] ∧
      s2.chain = s.chain ∧ s2.difficulty = s.difficulty ∧
      s2.mining_reward = s.mining_reward ∧ s2.block_capacity = s.block_capacity ∧
      s2.nodes = s.nodes) := by
  refine ⟨?_, ?_, ?_, ?_⟩
  · cases hf : tx.from_ with
    | none =>
      have hlhs : s.add_transaction tx = .error .invalidInput := by
        unfold Blockchain.add_transaction
        rw [hf]
      exact ⟨fun _ => Or.inl rfl, fun _ => hlhs⟩
    | some f =>
      cases htt : tx.to_ with
      | none =>
        have hlhs : s.add_transaction tx = .error .invalidInput := by
          unfold Blockchain.add_transaction
          rw [hf, htt]
        exact ⟨fun _ => Or.inr (Or.inl rfl), fun _ => hlhs⟩
      | some r =>
        cases hta : tx.amount with
        | none =>
          have hlhs : s.add_transaction tx = .error .invalidInput := by
            unfold Blockchain.add_transaction
            rw [hf, htt, hta]
          exact ⟨fun _ => Or.inr (Or.inr (Or.inl rfl)), fun _ => hlhs⟩
        | some a =>
          have hunfold : s.add_transaction tx =
              (if pyStrip f = "" ∨ pyStrip r = "" then .error .invalidInput
               else if a ≤ 0 then .error .invalidInput
               else if f ≠ "SYSTEM" ∧
                   chainBalance s.chain f - pendingOut s.mempool f < a - eps then
                 .error .insufficientFunds
               else .ok { s with mempool :=
                 s.mempool ++ [{ from_ := f, to_ := r, amount := a }] }) := by
            unfold Blockchain.add_transaction
            rw [hf, htt, hta]
          rw [hunfold]
          constructor
          · intro herr
            by_cases hempty : pyStrip f = "" ∨ pyStrip r = ""
            · rcases hempty with h1 | h2
              · exact Or.inr (Or.inr (Or.inr (Or.inl ⟨f, rfl, h1⟩)))
              · exact Or.inr (Or.inr (Or.inr (Or.inr (Or.inl ⟨r, rfl, h2⟩))))
            · rw [if_neg hempty] at herr
              by_cases hpos : a ≤ 0
              · exact Or.inr (Or.inr (Or.inr (Or.inr (Or.inr ⟨a, rfl, hpos⟩))))
              · rw [if_neg hpos] at herr
                by_cases hfunds : f ≠ "SYSTEM" ∧
                    chainBalance s.chain f - pendingOut s.mempool f < a - eps
                · rw [if_pos hfunds] at herr
                  simp at herr
                · rw [if_neg hfunds] at herr
                  cases herr
          · intro hbad
            rcases hbad with h1 | h2 | h3 | ⟨f2, hf2, he2⟩ | ⟨r2, hr2, he2⟩ | ⟨a2, ha2, he2⟩
            · cases h1
            · cases h2
            · cases h3
            · cases hf2
              rw [if_pos (Or.inl he2)]
            · cases hr2
              rw [if_pos (Or.inr he2)]
            · cases ha2
              by_cases hempty : pyStrip f = "" ∨ pyStrip r = ""
              · rw [if_pos hempty]
              · rw [if_neg hempty, if_pos he2]
  · intro f r a hf htt hta hfne hrne hapos hsys
    have hunfold : s.add_transaction tx =
        (if pyStrip f = "" ∨ pyStrip r = "" then .error .invalidInput
         else if a ≤ 0 then .error .invalidInput
         else if f ≠ "SYSTEM" ∧
             chainBalance s.chain f - pendingOut s.mempool f < a - eps then
           .error .insufficientFunds
         else .ok { s with mempool :=
           s.mempool ++ [{ from_ := f, to_ := r, amount := a }] }) := by
      unfold Blockchain.add_transaction
      rw [hf, htt, hta]
    rw [hunfold, if_neg (by push_neg; exact ⟨hfne, hrne⟩), if_neg (not_le.mpr hapos)]
    constructor
    · intro herr
      by_cases hfunds : f ≠ "SYSTEM" ∧
          chainBalance s.chain f - pendingOut s.mempool f < a - eps
      · exact hfunds.2
      · rw [if_neg hfunds] at herr
        cases herr
    · intro hlt
      rw [if_pos ⟨hsys, hlt⟩]
  · intro e he
    unfold Blockchain.add_transaction_run
    rw [he]
  · intro s2 hok
    obtain ⟨f, r, a, hf, htt, hta, _, _, _, _, hs2⟩ :=
      Blockchain.add_transaction_ok s s2 tx hok
    subst hs2
    exact ⟨f, r, a, hf, htt, hta, rfl, rfl, rfl, rfl, rfl, rfl⟩

theorem claim_C5_witness :
    (Blockchain.fresh id).add_transaction
      { from_ := some "alice", to_ := some "bob", amount := some 0 } =
      .error .invalidInput ∧
    (Blockchain.fresh id).add_transaction
      { from_ := some "alice", to_ := some "bob", amount := some 1 } =
      .error .insufficientFunds ∧
    (Blockchain.fresh id).add_transaction_run
      { from_ := some "alice", to_ := some "bob", amount := some 1 } =
      Blockchain.fresh id := by
  obtain ⟨hiff0, _, _, _⟩ := claim_C5 (Blockchain.fresh id)
    { from_ := some "alice", to_ := some "bob", amount := some 0 }
  obtain ⟨_, hiff1, hrun1, _⟩ := claim_C5 (Blockchain.fresh id)
    { from_ := some "alice", to_ := some "bob", amount := some 1 }
  have h0 : (Blockchain.fresh id).add_transaction
      { from_ := some "alice", to_ := some "bob", amount := some 0 } =
      .error .invalidInput :=
    hiff0.mpr (Or.inr (Or.inr (Or.inr (Or.inr (Or.inr ⟨0, rfl, le_refl 0⟩)))))
  have h1 : (Blockchain.fresh id).add_transaction
      { from_ := some "alice", to_ := some "bob", amount := some 1 } =
      .error .insufficientFunds := by
    apply (hiff1 "alice" "bob" 1 rfl rfl rfl (by with_unfolding_all decide)
      (by with_unfolding_all decide) (by norm_num) (by with_unfolding_all decide)).mpr
    with_unfolding_all decide
  exact ⟨h0, h1, hrun1 .insufficientFunds h1⟩

/-- C6 (amended): a successful `mine_block` mines the FIFO mempool
prefix plus a final reward transaction, links the block to the head at
the next index, appends it, and prunes the mempool by a *set* of
canonical serializations of the included non-SYSTEM transactions — so
every mempool entry whose serialization matches an included one is
removed, including all duplicate copies, not one copy per included
occurrence. -/
theorem claim_C6 (hashFn : String → String) (fuel : Nat) (now : Int)
    (s s2 : Blockchain) (miner : String) (b : Block)
    (h : s.mine_block hashFn fuel now miner = some (s2, b)) :
    b.transactions = s.mempool.take s.block_capacity ++
      [{ from_ := "SYSTEM", to_ := miner, amount := s.mining_reward }] ∧
    (∃ latest, s.chain.getLast? = some latest ∧ b.previous_hash = latest.hash) ∧
    b.index = s.chain.length ∧
    s2.chain = s.chain ++ [b] ∧
    s2.mempool = s.mempool.filter (fun t => decide (serializeTx t ∉
      (b.transactions.filter (fun u => u.from_ ≠ "SYSTEM")).map serializeTx)) ∧
    (∀ t ∈ s.mempool, serializeTx t ∈
      (b.transactions.filter (fun u => u.from_ ≠ "SYSTEM")).map serializeTx →
      t ∉ s2.mempool) := by
  obtain ⟨latest, hlast, hbtxs, hbprev, hbidx, hbts, hbhash, hbzero,
    hchain2, hmem2, _, _, _, _⟩ :=
    Blockchain.mine_block_some hashFn fuel now s s2 miner b h
  have hmem3 : s2.mempool = s.mempool.filter (fun t => decide (serializeTx t ∉
      (b.transactions.filter (fun u => u.from_ ≠ "SYSTEM")).map serializeTx)) := by
    rw [hbtxs]
    exact hmem2
  refine ⟨hbtxs, ⟨latest, hlast, hbprev⟩, hbidx, hchain2, hmem3, ?_⟩
  intro t ht hser hmem
  rw [hmem3] at hmem
  obtain ⟨_, hkeep⟩ := List.mem_filter.mp hmem
  exact (of_decide_eq_true hkeep) hser

set_option maxRecDepth 8000 in
/-- C6 counterexample to the frozen claim: with `block_capacity = 1`
and the same transaction value twice in the mempool, exactly one copy
is included in the mined block, yet the pruning removes *both* copies
(the claim predicts the mempool keeps one copy). -/
theorem claim_C6_counterexample :
    Blockchain.mine_block id 1 1735689601 dupState "bob" = some (dupStateAfter, minedB) ∧
    minedB.transactions = [dupTx, { from_ := "SYSTEM", to_ := "bob", amount := 50 }] ∧
    dupState.mempool = [dupTx, dupTx] ∧
    dupStateAfter.mempool = [] ∧
    dupStateAfter.mempool ≠ [dupTx] := by
  decide

set_option maxRecDepth 8000 in
theorem claim_C6_witness :
    Blockchain.mine_block id 1 1735689601 dupState "bob" = some (dupStateAfter, minedB) ∧
    dupStateAfter.chain = dupState.chain ++ [minedB] ∧
    minedB.index = dupState.chain.length := by
  have hmine : Blockchain.mine_block id 1 1735689601 dupState "bob" =
      some (dupStateAfter, minedB) := by
    decide
  have h := claim_C6 id 1 1735689601 dupState dupStateAfter "bob" minedB hmine
  exact ⟨hmine, h.2.2.2.1, h.2.2.1⟩

/-- C7: balance conservation — summing `get_balance` over every
address that appears in any transaction of the chain yields exactly
the total amount issued by "SYSTEM" transactions. -/
theorem claim_C7 (chain : List Block) :
    Finset.sum (appearingAddresses chain) (fun a => chainBalance chain a) =
      systemIssued chain := by
  unfold appearingAddresses systemIssued chainBalance
  exact sum_deltaList (chainTxs chain) (txAddresses (chainTxs chain))
    (txAddresses_mem (chainTxs chain))

/-- Cancelling the fixed fields of the hashed pre-image: two blocks
differing only in their transaction lists have equal `block_string`s
only if the serialized transaction lists agree. -/
theorem blockString_txs_inj (b : Block) (txs2 : List Tx)
    (h : blockString { b with transactions := txs2 } = blockString b) :
    serializeTxs txs2 = serializeTxs b.transactions := by
  unfold blockString at h
  have hdata := congrArg String.data h
  simp only [String.data_append, List.append_assoc] at hdata
  have h2 := List.append_cancel_left (List.append_cancel_left
    (List.append_cancel_left hdata))
  have h3 := List.append_cancel_right h2
  exact congrArg String.mk h3

/-- C8 (amended): the transaction serialization sorts only the dict
keys inside each transaction and preserves the order of the list, so
`calculate_hash` is *not* invariant under reordering: whenever the
reordering changes the serialized list, any injective hash function
yields a different digest. -/
theorem claim_C8 (hashFn : String → String) (hinj : Function.Injective hashFn)
    (b : Block) (txs2 : List Tx)
    (hne : serializeTxs txs2 ≠ serializeTxs b.transactions) :
    Block.calculate_hash hashFn { b with transactions := txs2 } ≠
      Block.calculate_hash hashFn b :=
  fun heq => hne (blockString_txs_inj b txs2 (hinj heq))

/-- C8 counterexample to the frozen claim: a block and a permutation of
its two transactions serialize differently and hash differently (hash
instance `id`), so the hash is not invariant under reordering. -/
theorem claim_C8_counterexample :
    List.Perm ({ permBlockA with transactions := [permTxB, permTxA] } : Block).transactions
      permBlockA.transactions ∧
    serializeTxs [permTxB, permTxA] ≠ serializeTxs permBlockA.transactions ∧
    Block.calculate_hash id { permBlockA with transactions := [permTxB, permTxA] } ≠
      Block.calculate_hash id permBlockA := by
  with_unfolding_all decide

theorem claim_C8_witness :
    Block.calculate_hash id { permBlockA with transactions := [permTxB, permTxA] } ≠
      Block.calculate_hash id permBlockA :=
  claim_C8 id (fun x y hxy => hxy) permBlockA [permTxB, permTxA]
    (by with_unfolding_all decide)

set_option maxRecDepth 8000 in
/-- C9: `is_chain_valid` does not verify proof-of-work — a concrete
two-block chain whose hashes are self-consistent passes validation
although the hash of its non-genesis block has fewer than `difficulty`
leading '0' characters (default difficulty 3). -/
theorem claim_C9 :
    isChainValidList id [gBlock, extBlock] = true ∧
    (Blockchain.fresh id).is_chain_valid id [gBlock, extBlock] = true ∧
    extBlock.hash = Block.calculate_hash id extBlock ∧
    extBlock.hash.take (Blockchain.fresh id).difficulty ≠
      zeros (Blockchain.fresh id).difficulty := by
  decide

set_option maxRecDepth 8000 in
/-- C10: validation does not pin the genesis block — a candidate chain
starting from a different genesis (SYSTEM allocating 9999 to
"attacker") passes `is_chain_valid`, and `replace_chain` installs it
over the fresh ledger because it is strictly longer. -/
theorem claim_C10 :
    altGenesis.transactions ≠ (Blockchain.create_genesis_block id).transactions ∧
    (Blockchain.fresh id).chain.length < ([altGenesis, altBlock1] : List Block).length ∧
    ((Blockchain.fresh id).replace_chain id [altGenesis, altBlock1]).1 = true ∧
    ((Blockchain.fresh id).replace_chain id [altGenesis, altBlock1]).2.chain =
      [altGenesis, altBlock1] := by
  decide
